import Mathlib

/-!
Verification of the combinatorial read-placement core of
`scripts/cen6_duplication.py` (centroFlye).

Shallow embedding conventions:
* Python strings (nucleotide segments, k-mers) are `List Char`.
* A `MonoRead` is reduced to the fields the script reads: `seq_id` and the
  `nucl_segment` of each monomer instance.
* Python `dict`s that are only read are functions; the mutated location
  table of `main` is an association list `LocMap`.
* Python runtime errors (`KeyError`, `IndexError`) in the location-patching
  loop are modelled with `Option`.
* Counts use `Nat`, scores that can go negative use `Int`.
-/

/-- A k-mer: a nucleotide substring, modelled as a list of characters. -/
abbrev Kmer := List Char

/-- All length-`k` sliding windows of a segment, in order of start index:
`nucl_segment[i:i+k] for i in range(len(nucl_segment)-k+1)`.  For a segment
shorter than `k` the Python range is empty, hence the guard. -/
def windows (k : Nat) (s : List Char) : List Kmer :=
  if k ≤ s.length then
    (List.range (s.length - k + 1)).map (fun i => (s.drop i).take k)
  else []

/-- The per-unit filter of `ReadKMerCloud.from_monoread`: k-mers of the
segment occurring exactly once in it (`{kmer for kmer, cnt in
kmer_cnt.items() if cnt == 1}`).  A k-mer with count 1 appears once in
`windows`, so this list needs no dedup to represent the Python set. -/
def unitKmers (k : Nat) (s : List Char) : List Kmer :=
  (windows k s).filter (fun w => (windows k s).count w == 1)

/-- A monomer read, reduced to the fields `cen6_duplication.py` reads:
its id and the nucleotide segment of each monomer instance. -/
structure MonoRead where
  seq_id : String
  monoinstances : List (List Char)

/-- Per-read k-mer cloud: one k-mer set per monomer unit (class
`ReadKMerCloud`). -/
structure ReadKMerCloud where
  r_id : String
  kmers : List (List Kmer)

/-- The `all_kmers` field computed by `ReadKMerCloud.__init__`:
concatenation of the per-unit sets. -/
def ReadKMerCloud.all_kmers (c : ReadKMerCloud) : List Kmer :=
  c.kmers.flatten

/-- Cross-unit occurrence count of `ReadKMerCloud.from_monoread`
(`all_kmer_cnt`): the number of units whose surviving set contains the
k-mer (each unit's set contributes at most one increment). -/
def crossUnitCount (perUnit : List (List Kmer)) (km : Kmer) : Nat :=
  perUnit.countP (fun u => decide (km ∈ u))

/-- `ReadKMerCloud.from_monoread(monoread, k, max_mult)`: per unit, keep
the k-mers occurring exactly once in the unit's segment; then drop from
every unit the k-mers contained in `max_mult` or more units. -/
def ReadKMerCloud.from_monoread (mr : MonoRead) (k : Nat) (max_mult : Nat) :
    ReadKMerCloud :=
  let perUnit := mr.monoinstances.map (unitKmers k)
  ⟨mr.seq_id,
   perUnit.map (fun u => u.filter (fun km => crossUnitCount perUnit km < max_mult))⟩

example :
    (ReadKMerCloud.from_monoread ⟨"r", ["ACGT".toList, "AAGT".toList]⟩ 2 2).kmers =
      [["AC".toList, "CG".toList], ["AA".toList, "AG".toList]] := by
  decide

/-- Modelled from the spec: the class `CloudContig` lives in
`cloud_contig.py`, which is not among the repository files; only its
subclass `SpecialCloudContig` and the calls `add_read(cloud, position)`
are.  Per the spec, the index maps each position to a kmer→count table
(`clouds`), each k-mer to the set of positions where it was observed
(`kmer_positions`, registered idempotently), and keeps the global
minimum-frequency cutoff.  `kmers_seen` records every k-mer ever added,
each once, so that the set `freq_kmers` can be recomputed at scoring
time. -/
structure CloudContig where
  min_freq : Nat
  clouds : Int → Kmer → Nat
  kmer_positions : Kmer → List Int
  kmers_seen : List Kmer

/-- A fresh, empty index (`SpecialCloudContig(cloud_contig_minfreq)`). -/
def CloudContig.empty (min_freq : Nat) : CloudContig :=
  ⟨min_freq, fun _ _ => 0, fun _ => [], []⟩

/-- Modelled from the spec: one increment of `add_read` for one k-mer of
the flattened cloud — `clouds[position][kmer] += 1`, `position` recorded
in `kmer_positions[kmer]` unless already present, the k-mer recorded in
`kmers_seen` unless already present. -/
def CloudContig.add_kmer (cc : CloudContig) (pos : Int) (km : Kmer) :
    CloudContig where
  min_freq := cc.min_freq
  clouds := fun p s =>
    if p = pos ∧ s = km then cc.clouds p s + 1 else cc.clouds p s
  kmer_positions := fun s =>
    if s = km then
      (if pos ∈ cc.kmer_positions km then cc.kmer_positions km
       else cc.kmer_positions km ++ [pos])
    else cc.kmer_positions s
  kmers_seen :=
    if km ∈ cc.kmers_seen then cc.kmers_seen else cc.kmers_seen ++ [km]

/-- Modelled from the spec: `CloudContig.add_read(cloud, position)` —
flattens the read's per-unit k-mer sets into one multiset (`all_kmers`)
and registers every k-mer of it at `position`. -/
def CloudContig.add_read (cc : CloudContig) (cloud : ReadKMerCloud)
    (pos : Int) : CloudContig :=
  cloud.all_kmers.foldl (fun c km => c.add_kmer pos km) cc

/-- Total observed count of a k-mer across all its recorded positions. -/
def CloudContig.total_count (cc : CloudContig) (km : Kmer) : Nat :=
  ((cc.kmer_positions km).map (fun p => cc.clouds p km)).sum

/-- Modelled from the spec: `freq_kmers` — the k-mers whose total count
across all positions exceeds the configured minimum (`min_freq`),
recomputed at scoring time. -/
def CloudContig.freq_kmers (cc : CloudContig) : List Kmer :=
  cc.kmers_seen.filter (fun km => decide (cc.min_freq < cc.total_count km))

/-- `SpecialCloudContig.get_score(max_freq)` (the body is in
`cen6_duplication.py`): for every k-mer of `freq_kmers`, count the
positions of `kmer_positions[kmer]` where `clouds[pos][kmer] > max_freq`;
the k-mer scores 1 when that count is exactly 1. -/
def CloudContig.get_score (cc : CloudContig) (max_freq : Nat) : Nat :=
  cc.freq_kmers.countP (fun km =>
    decide (((cc.kmer_positions km).countP
      (fun p => decide (max_freq < cc.clouds p km))) = 1))

/-- Sequentially `add_read` a list of (cloud, position) pairs. -/
def CloudContig.add_reads (cc : CloudContig)
    (items : List (ReadKMerCloud × Int)) : CloudContig :=
  items.foldl (fun c pr => c.add_read pr.1 pr.2) cc

/-- `var_assess_quality(variant, q_ids, certain_rids, all_read_kmer_clouds,
locations, cloud_contig_minfreq)`: build a fresh index; add every certain
read at `locations[r_id][0][0]`; take `base_score = get_score()`; then for
`i, q_id in enumerate(q_ids[:len(variant)])` — i.e. for each pair of
`variant.zip q_ids` — add the read at `locations[q_id][variant[i]][0]`;
return the new score minus `base_score`.  Dictionary reads are modelled
as functions; the list indexing `locations[r][j]` is total here via
`getD` (the callers in scope index within bounds). -/
def var_assess_quality (variant : List Nat) (q_ids : List String)
    (certain_rids : List String)
    (all_read_kmer_clouds : String → ReadKMerCloud)
    (locations : String → List (Int × Int))
    (cloud_contig_minfreq : Nat) : Int :=
  let cc := certain_rids.foldl
    (fun c r => c.add_read (all_read_kmer_clouds r)
      (((locations r).getD 0 (0, 0)).1))
    (CloudContig.empty cloud_contig_minfreq)
  let base_score := cc.get_score 0
  let cc2 := (variant.zip q_ids).foldl
    (fun c bq => c.add_read (all_read_kmer_clouds bq.2)
      (((locations bq.2).getD bq.1 (0, 0)).1))
    cc
  (cc2.get_score 0 : Int) - (base_score : Int)

/-- `list(product([0, 1], repeat=nrepeat))`: all binary vectors of length
`nrepeat` in the order of `itertools.product` — the leftmost coordinate
varies slowest, so the list is lexicographically sorted with 0 < 1. -/
def variants : Nat → List (List Nat)
  | 0 => [[]]
  | n + 1 => (variants n).map (0 :: ·) ++ (variants n).map (1 :: ·)

/-- `np.argmax` on a list of scores: the index of the first occurrence of
the maximum (0 on the empty list). -/
def argmax : List Int → Nat
  | [] => 0
  | [_] => 0
  | x :: y :: rest =>
    let j := argmax (y :: rest)
    if (y :: rest).getD j 0 ≤ x then 0 else j + 1

/-- `get_best_variant(...)`: score every variant of
`product([0,1], repeat=nrepeat)` with `var_assess_quality` and return
`variants[np.argmax(scores)]`.  (`Parallel(backend="threading")` returns
the scores in the order of `variants`; the initial
`best_variant, best_score = None, 0` of the source is dead code.) -/
def get_best_variant (nrepeat : Nat) (q_ids : List String)
    (certain_rids : List String)
    (all_read_kmer_clouds : String → ReadKMerCloud)
    (locations : String → List (Int × Int))
    (cloud_contig_minfreq : Nat) : List Nat :=
  let vs := variants nrepeat
  let scores := vs.map (fun v =>
    var_assess_quality v q_ids certain_rids all_read_kmer_clouds locations
      cloud_contig_minfreq)
  vs.getD (argmax scores) []

/-- The read-location table of `main`: `r_id -> [(start, end), ...]`,
modelled as an association list because the patching loop mutates it. -/
abbrev LocMap := List (String × List (Int × Int))

/-- Dictionary read `locations[r_id]`: the value of the first entry with
the key, `none` where Python raises `KeyError`. -/
def lookupLoc : LocMap → String → Option (List (Int × Int))
  | [], _ => none
  | p :: rest, r => if p.1 = r then some p.2 else lookupLoc rest r

/-- Dictionary write `locations[r_id] = v` for a key already present:
every entry with the key gets the new value (with distinct keys, exactly
the Python dict update). -/
def updateLoc (m : LocMap) (r : String) (v : List (Int × Int)) : LocMap :=
  m.map (fun p => if p.1 = r then (p.1, v) else p)

/-- The patching loop of `main` —
`for i, q_id in enumerate(q_ids[:len(best_variant)]):
   locations[q_id] = [locations[q_id][best_variant[i]]]` —
run on the list of `(best_variant[i], q_id)` pairs, i.e. on
`variant.zip q_ids`.  A missing key (`KeyError`) or an out-of-range
index (`IndexError`) is `none`. -/
def patchPairs : List (Nat × String) → LocMap → Option LocMap
  | [], m => some m
  | (b, q) :: rest, m =>
    match lookupLoc m q with
    | none => none
    | some ls =>
      match ls[b]? with
      | none => none
      | some loc => patchPairs rest (updateLoc m q [loc])

/-- The whole patching loop: iterate over `variant.zip q_ids`, which is
exactly `enumerate(q_ids[:len(variant)])` paired with `variant[i]`. -/
def patch_locations (variant : List Nat) (q_ids : List String)
    (m : LocMap) : Option LocMap :=
  patchPairs (variant.zip q_ids) m

/-- The defensive filter of `main`:
`locations = {r_id: loc for r_id, loc in locations.items() if len(loc) == 1}`. -/
def filter_singles (m : LocMap) : LocMap :=
  m.filter (fun p => p.2.length == 1)

/-- The Location Patcher of `main`, lines 243-248: the patching loop
followed by the singleton filter. -/
def resolve_locations (variant : List Nat) (q_ids : List String)
    (m : LocMap) : Option LocMap :=
  (patch_locations variant q_ids m).map filter_singles

/-- The ambiguous-read selection of `main`, lines 205-208:
`q_ids = [r_id for r_id in locations if len(locations[r_id]) == 2 and
locations[r_id][0][1] >= left_border and locations[r_id][1][0] <= right_border]`
(the comprehension iterates the table in order; `and` short-circuits, so
the indexing happens only when the length is 2). -/
def select_q_ids (locations : LocMap) (left_border right_border : Int) :
    List String :=
  (locations.filter (fun p =>
    p.2.length == 2 &&
    decide (left_border ≤ (p.2.getD 0 (0, 0)).2) &&
    decide ((p.2.getD 1 (0, 0)).1 ≤ right_border))).map Prod.fst

/-- `get_certain_reads(locations, monoreads, left_border, right_border)`:
keep the reads with exactly one location `(s, e)` such that
`e > left_border and s < right_border` (strict), then sort by
`len(monoreads[r_id])` in reverse.  `monolen` stands for
`lambda r_id: len(monoreads[r_id])` (the `__len__` of `MonoString` lives
outside these two files). -/
def get_certain_reads (locations : LocMap) (monolen : String → Nat)
    (left_border right_border : Int) : List String :=
  ((locations.filter (fun p =>
      p.2.length == 1 &&
      decide (left_border < (p.2.getD 0 (0, 0)).2) &&
      decide ((p.2.getD 0 (0, 0)).1 < right_border))).map Prod.fst).mergeSort
    (fun a b => monolen b ≤ monolen a)

/-- Modelled from the spec: the straddle condition in the spec's words —
a read is ambiguous when it has "exactly two [locations], one ending
before a right boundary-window and one starting after a left
boundary-window".  "Before"/"after" are read inclusively; the
counterexample below violates the strict readings as well. -/
def specStraddle (ls : List (Int × Int)) (lb rb : Int) : Prop :=
  ls.length = 2 ∧ (∃ l ∈ ls, l.2 ≤ rb) ∧ (∃ l ∈ ls, lb ≤ l.1)

/-! Concrete data for the example scenarios and the counterexamples. -/

/-- The spec's example k-mer. -/
def exKmer : Kmer := "ACGTACGTA".toList

/-- A cloud contributing `exKmer` three times at one position. -/
def exCloud3 : ReadKMerCloud := ⟨"c3", [[exKmer], [exKmer], [exKmer]]⟩

/-- A cloud contributing `exKmer` once. -/
def exCloud1 : ReadKMerCloud := ⟨"c1", [[exKmer]]⟩

/-- The spec's example index: `clouds[100][exKmer] = 3`,
`clouds[200][exKmer] = 3`, minimum frequency 4 (total count 6 > 4). -/
def exContig : CloudContig :=
  ((CloudContig.empty 4).add_read exCloud3 100).add_read exCloud3 200

/-- The example index after one more read at 100:
`clouds[100][exKmer] = 4`, `clouds[200][exKmer] = 3`. -/
def exContig2 : CloudContig := exContig.add_read exCloud1 100

/-- Clouds for the `get_best_variant` examples: every read carries
`exKmer` once. -/
def exClouds : String → ReadKMerCloud :=
  fun r => if r = "Q" then ⟨"Q", [[exKmer]]⟩ else ⟨"A", [[exKmer]]⟩

/-- Locations for the `get_best_variant` counterexample: the certain read
"A" sits at 10; the ambiguous read "Q" can go to 30 (bit 0) or 10
(bit 1).  Bit 0 spoils the unique position of `exKmer` (score -1),
bit 1 keeps it (score 0): every variant scores ≤ 0. -/
def exLocsNeg : String → List (Int × Int) :=
  fun r => if r = "Q" then [(30, 40), (10, 20)] else [(10, 20)]

/-- Symmetric locations: both candidate placements of "Q" coincide, so
both variants score the same. -/
def exLocsSym : String → List (Int × Int) :=
  fun r => if r = "Q" then [(10, 20), (10, 20)] else [(10, 20)]

/-- The key `q` is present in the table and every entry with that key
holds one shared singleton value — the state of a patched read after a
successful pass of the patching loop. -/
def homSingle (m : LocMap) (q : String) : Prop :=
  ∃ x, (∃ p ∈ m, p.1 = q) ∧ ∀ p ∈ m, p.1 = q → p.2 = [x]

/-- A concrete location table: two ambiguous reads "a", "b" and an
unresolved read "c". -/
def exPatchMap : LocMap :=
  [("a", [(1, 2), (3, 4)]), ("b", [(5, 6), (7, 8)]),
   ("c", [(9, 10), (11, 12)])]

/-! ## Helper lemmas -/

/-- On a list without duplicates, `countP p = 1` says exactly one element
satisfies `p`. -/
theorem countP_eq_one_iff {α : Type} {l : List α} {p : α → Bool}
    (h : l.Nodup) :
    l.countP p = 1 ↔ ∃ a ∈ l, p a = true ∧ ∀ b ∈ l, p b = true → b = a := by
  induction l with
  | nil => simp
  | cons x xs ih =>
    have hx : x ∉ xs := (List.nodup_cons.mp h).1
    have hxs : xs.Nodup := (List.nodup_cons.mp h).2
    rw [List.countP_cons]
    cases hp : p x with
    | false =>
      rw [if_neg (by simp), Nat.add_zero, ih hxs]
      constructor
      · rintro ⟨a, ha, hpa, huniq⟩
        refine ⟨a, List.mem_cons_of_mem _ ha, hpa, ?_⟩
        intro b hb hpb
        rcases List.mem_cons.mp hb with rfl | hb'
        · rw [hp] at hpb; exact absurd hpb (by simp)
        · exact huniq b hb' hpb
      · rintro ⟨a, ha, hpa, huniq⟩
        rcases List.mem_cons.mp ha with rfl | ha'
        · rw [hp] at hpa; exact absurd hpa (by simp)
        · exact ⟨a, ha', hpa, fun b hb hpb =>
            huniq b (List.mem_cons_of_mem _ hb) hpb⟩
    | true =>
      rw [if_pos rfl]
      constructor
      · intro hcnt
        have h0 : xs.countP p = 0 := by omega
        refine ⟨x, List.mem_cons_self _ _, hp, ?_⟩
        intro b hb hpb
        rcases List.mem_cons.mp hb with rfl | hb'
        · rfl
        · exact absurd hpb (List.countP_eq_zero.mp h0 b hb')
      · rintro ⟨a, ha, hpa, huniq⟩
        have hax : x = a := huniq x (List.mem_cons_self _ _) hp
        have h0 : xs.countP p = 0 := by
          rw [List.countP_eq_zero]
          intro b hb hpb
          have hba : b = a := huniq b (List.mem_cons_of_mem _ hb) hpb
          have hxb : x = b := hax.trans hba.symm
          exact hx (by rw [hxb]; exact hb)
        omega

/-! ## C1: `get_score` counts uniquely-placed frequent k-mers -/

/-- C1: for every index state whose position lists are duplicate-free (as
`add_read` registers positions idempotently) and every `max_freq`,
`get_score(max_freq)` is the number of k-mers of `freq_kmers` having
exactly one position in `kmer_positions[kmer]` with
`clouds[position][kmer] > max_freq`. -/
theorem c1_get_score_unique_position (cc : CloudContig) (max_freq : Nat)
    (h : ∀ km ∈ cc.kmers_seen, (cc.kmer_positions km).Nodup) :
    cc.get_score max_freq =
      (cc.freq_kmers.filter (fun km =>
        decide (∃ p ∈ cc.kmer_positions km,
          max_freq < cc.clouds p km ∧
          ∀ q ∈ cc.kmer_positions km,
            max_freq < cc.clouds q km → q = p))).length := by
  rw [CloudContig.get_score, ← List.countP_eq_length_filter]
  apply List.countP_congr
  intro km hkm
  have hnd : (cc.kmer_positions km).Nodup :=
    h km (List.mem_filter.mp hkm).1
  simp only [decide_eq_true_eq]
  rw [countP_eq_one_iff hnd]
  constructor
  · rintro ⟨a, ha, hpa, hu⟩
    exact ⟨a, ha, by simpa using hpa,
      fun q hq hlt => hu q hq (by simpa using hlt)⟩
  · rintro ⟨a, ha, hpa, hu⟩
    exact ⟨a, ha, by simpa using hpa,
      fun q hq hlt => hu q hq (by simpa using hlt)⟩

/-- C1 witness: the spec's example — `exKmer` counted 3 times at each of
positions 100 and 200 exceeds `max_freq = 2` at two positions, so it
contributes 0 and `get_score` is 0; it still contributes 0 after the
count at 100 is raised to 4. -/
theorem c1_witness :
    CloudContig.get_score exContig 2 =
      (exContig.freq_kmers.filter (fun km =>
        decide (∃ p ∈ exContig.kmer_positions km,
          2 < exContig.clouds p km ∧
          ∀ q ∈ exContig.kmer_positions km,
            2 < exContig.clouds q km → q = p))).length ∧
    CloudContig.get_score exContig 2 = 0 ∧
    CloudContig.get_score exContig2 2 = 0 :=
  ⟨c1_get_score_unique_position exContig 2 (by decide), by decide, by decide⟩

/-! ## C2: the variant scorer's structure -/

/-- Zipping sees only the first `v.length` elements of the second list. -/
theorem zip_take_self {α β : Type} (v : List α) (qs : List β) :
    v.zip (qs.take v.length) = v.zip qs := by
  induction v generalizing qs with
  | nil => simp
  | cons a v ih =>
    cases qs with
    | nil => simp
    | cons b qs => simp [ih]

/-- C2: `var_assess_quality` is `get_score` of the base index (every
certain read added at the start of its first location) extended by the
first `len(variant)` ambiguous reads — each at the start of the candidate
location its bit selects — minus the base score; and the ambiguous reads
beyond the variant's length never enter the computation. -/
theorem c2_var_assess_structure (variant : List Nat)
    (q_ids certain_rids : List String)
    (clouds : String → ReadKMerCloud)
    (locations : String → List (Int × Int)) (mf : Nat) :
    (var_assess_quality variant q_ids certain_rids clouds locations mf =
      ((((CloudContig.empty mf).add_reads
          (certain_rids.map (fun r =>
            (clouds r, ((locations r).getD 0 (0, 0)).1)))).add_reads
          ((variant.zip q_ids).map (fun bq =>
            (clouds bq.2, ((locations bq.2).getD bq.1 (0, 0)).1)))).get_score 0
        : Int) -
      (((CloudContig.empty mf).add_reads
          (certain_rids.map (fun r =>
            (clouds r, ((locations r).getD 0 (0, 0)).1)))).get_score 0 : Int)) ∧
    var_assess_quality variant q_ids certain_rids clouds locations mf =
      var_assess_quality variant (q_ids.take variant.length) certain_rids
        clouds locations mf := by
  constructor
  · simp [var_assess_quality, CloudContig.add_reads, List.foldl_map]
  · simp [var_assess_quality, zip_take_self]

/-! ## C3: completeness and tie-break of the enumeration -/

/-- Unfolding of `argmax` on a list of two or more elements. -/
theorem argmax_eq_cons (x y : Int) (rest : List Int) :
    argmax (x :: y :: rest) =
      if (y :: rest).getD (argmax (y :: rest)) 0 ≤ x then 0
      else argmax (y :: rest) + 1 := rfl

/-- `argmax` of a non-empty list is a valid index. -/
theorem argmax_lt_length (l : List Int) (h : l ≠ []) : argmax l < l.length := by
  induction l with
  | nil => exact absurd rfl h
  | cons x xs ih =>
    cases xs with
    | nil => simp [argmax]
    | cons y rest =>
      rw [argmax_eq_cons]
      split_ifs with c
      · simp
      · have := ih (by simp)
        simpa using Nat.succ_lt_succ this

/-- The element at `argmax` is maximal. -/
theorem argmax_le (l : List Int) (j : Nat) (hj : j < l.length) :
    l.getD j 0 ≤ l.getD (argmax l) 0 := by
  induction l generalizing j with
  | nil => simp at hj
  | cons x xs ih =>
    cases xs with
    | nil =>
      have hj0 : j = 0 := Nat.lt_one_iff.mp (by simpa using hj)
      subst hj0
      simp [argmax]
    | cons y rest =>
      rw [argmax_eq_cons]
      split_ifs with c
      · cases j with
        | zero => simp
        | succ k =>
          have hk : k < (y :: rest).length := by simpa using hj
          calc (x :: y :: rest).getD (k + 1) 0 = (y :: rest).getD k 0 := rfl
            _ ≤ (y :: rest).getD (argmax (y :: rest)) 0 := ih k hk
            _ ≤ x := c
            _ = (x :: y :: rest).getD 0 0 := rfl
      · cases j with
        | zero =>
          have := lt_of_not_le c
          simpa using this.le
        | succ k =>
          have hk : k < (y :: rest).length := by simpa using hj
          simpa using ih k hk

/-- `argmax` is the first index attaining the maximum: every earlier
element is strictly smaller. -/
theorem argmax_first (l : List Int) (j : Nat) (hj : j < argmax l) :
    l.getD j 0 < l.getD (argmax l) 0 := by
  induction l generalizing j with
  | nil => simp [argmax] at hj
  | cons x xs ih =>
    cases xs with
    | nil => simp [argmax] at hj
    | cons y rest =>
      rw [argmax_eq_cons] at hj ⊢
      split_ifs with c
      · rw [if_pos c] at hj; omega
      · rw [if_neg c] at hj
        cases j with
        | zero => simpa using lt_of_not_le c
        | succ k =>
          have hk : k < argmax (y :: rest) := by omega
          simpa using ih k hk

/-- The enumeration has exactly `2 ^ n` entries. -/
theorem variants_length (n : Nat) : (variants n).length = 2 ^ n := by
  induction n with
  | zero => rfl
  | succ n ih => simp [variants, ih, pow_succ]; omega

/-- The enumeration is the full Cartesian product: it holds exactly the
0/1-vectors of length `n`. -/
theorem variants_mem (n : Nat) (v : List Nat) :
    v ∈ variants n ↔ v.length = n ∧ ∀ b ∈ v, b = 0 ∨ b = 1 := by
  induction n generalizing v with
  | zero =>
    simp only [variants, List.mem_singleton]
    constructor
    · rintro rfl; simp
    · rintro ⟨h, _⟩; exact List.length_eq_zero.mp h
  | succ n ih =>
    cases v with
    | nil =>
      simp [variants]
    | cons b w =>
      simp only [variants, List.mem_append, List.mem_map]
      constructor
      · rintro (⟨u, hu, he⟩ | ⟨u, hu, he⟩)
        · injection he with h1 h2
          subst h1; subst h2
          rcases (ih u).mp hu with ⟨hlen, hb⟩
          refine ⟨by simpa using hlen, ?_⟩
          intro c hc
          rcases List.mem_cons.mp hc with rfl | hc'
          · left; rfl
          · exact hb c hc'
        · injection he with h1 h2
          subst h1; subst h2
          rcases (ih u).mp hu with ⟨hlen, hb⟩
          refine ⟨by simpa using hlen, ?_⟩
          intro c hc
          rcases List.mem_cons.mp hc with rfl | hc'
          · right; rfl
          · exact hb c hc'
      · rintro ⟨hlen, hb⟩
        have hw : w ∈ variants n :=
          (ih w).mpr ⟨by simpa using hlen,
            fun c hc => hb c (List.mem_cons_of_mem _ hc)⟩
        rcases hb b (List.mem_cons_self _ _) with rfl | rfl
        · exact Or.inl ⟨w, hw, rfl⟩
        · exact Or.inr ⟨w, hw, rfl⟩

/-- The enumeration has no repeated vector. -/
theorem variants_nodup (n : Nat) : (variants n).Nodup := by
  induction n with
  | zero => simp [variants]
  | succ n ih =>
    simp only [variants]
    refine List.Nodup.append ?_ ?_ ?_
    · exact ih.map (fun a b h => by injection h)
    · exact ih.map (fun a b h => by injection h)
    · intro v hv hv'
      obtain ⟨u, _, rfl⟩ := List.mem_map.mp hv
      obtain ⟨w, _, he⟩ := List.mem_map.mp hv'
      injection he with h1 _
      exact absurd h1 (by omega)

/-- The enumeration is strictly increasing in the lexicographic order on
0/1-vectors (leftmost coordinate most significant). -/
theorem variants_sorted (n : Nat) :
    (variants n).Pairwise (List.Lex (· < ·)) := by
  induction n with
  | zero => simp [variants]
  | succ n ih =>
    simp only [variants]
    refine List.pairwise_append.mpr ⟨?_, ?_, ?_⟩
    · exact (List.pairwise_map).mpr (ih.imp (fun h => List.Lex.cons h))
    · exact (List.pairwise_map).mpr (ih.imp (fun h => List.Lex.cons h))
    · intro a ha b hb
      obtain ⟨u, _, rfl⟩ := List.mem_map.mp ha
      obtain ⟨w, _, rfl⟩ := List.mem_map.mp hb
      exact List.Lex.rel (by norm_num)

/-- The all-zero vector heads the enumeration. -/
theorem variants_head (n : Nat) :
    ∃ t, variants n = List.replicate n 0 :: t := by
  induction n with
  | zero => exact ⟨[], rfl⟩
  | succ n ih =>
    obtain ⟨t, ht⟩ := ih
    refine ⟨t.map (0 :: ·) ++ (variants n).map (1 :: ·), ?_⟩
    rw [show variants (n + 1) =
        (variants n).map (0 :: ·) ++ (variants n).map (1 :: ·) from rfl, ht]
    simp [List.replicate_succ]

/-- `getD` at an index within bounds is `get`. -/
theorem getD_eq_get {α : Type} (l : List α) (d : α) {i : Nat}
    (h : i < l.length) : l.getD i d = l.get ⟨i, h⟩ := by
  rw [List.getD_eq_getElem?_getD, List.getElem?_eq_getElem h]
  rfl

/-- `getD` through `map`, at an index within bounds. -/
theorem map_getD_of_lt {α β : Type} (f : α → β) (l : List α) (d : β)
    (e : α) {j : Nat} (h : j < l.length) :
    (l.map f).getD j d = f (l.getD j e) := by
  rw [getD_eq_get _ _ (by simpa using h), getD_eq_get _ _ h]
  simp

/-- `argmax` over a mapped score list: a valid index whose score is
maximal, every earlier index scoring strictly less. -/
theorem argmax_map_spec {α : Type} (f : α → Int) (l : List α) (d : α)
    (hne : l ≠ []) :
    argmax (l.map f) < l.length ∧
    (∀ j < l.length, f (l.getD j d) ≤ f (l.getD (argmax (l.map f)) d)) ∧
    (∀ j < argmax (l.map f), f (l.getD j d) < f (l.getD (argmax (l.map f)) d)) := by
  have hlen : (l.map f).length = l.length := by simp
  have hne' : l.map f ≠ [] := by simpa using hne
  have hi : argmax (l.map f) < l.length := by
    rw [← hlen]; exact argmax_lt_length _ hne'
  refine ⟨hi, ?_, ?_⟩
  · intro j hj
    have h := argmax_le (l.map f) j (by rw [hlen]; exact hj)
    rwa [map_getD_of_lt f l 0 d hj, map_getD_of_lt f l 0 d hi] at h
  · intro j hj
    have hjl : j < l.length := lt_trans hj hi
    have h := argmax_first (l.map f) j hj
    rwa [map_getD_of_lt f l 0 d hjl, map_getD_of_lt f l 0 d hi] at h

/-- C3: the search enumerates exactly `2 ^ n` distinct variants — the
full Cartesian product of 0/1-vectors of length `n` — and returns a
variant of maximal score; a distinct variant with the same score lies
strictly after it in the enumeration, hence is lexicographically larger
(the enumeration being lex-sorted). -/
theorem c3_search_enumeration (n : Nat) (q_ids certain_rids : List String)
    (clouds : String → ReadKMerCloud)
    (locations : String → List (Int × Int)) (mf : Nat) :
    (variants n).length = 2 ^ n ∧
    (variants n).Nodup ∧
    (∀ v, v ∈ variants n ↔ v.length = n ∧ ∀ b ∈ v, b = 0 ∨ b = 1) ∧
    ∃ i < (variants n).length,
      get_best_variant n q_ids certain_rids clouds locations mf =
        (variants n).getD i [] ∧
      (∀ j < (variants n).length,
        var_assess_quality ((variants n).getD j []) q_ids certain_rids
            clouds locations mf ≤
          var_assess_quality ((variants n).getD i []) q_ids certain_rids
            clouds locations mf) ∧
      ∀ j < (variants n).length,
        var_assess_quality ((variants n).getD j []) q_ids certain_rids
            clouds locations mf =
          var_assess_quality ((variants n).getD i []) q_ids certain_rids
            clouds locations mf →
        j ≠ i →
        List.Lex (· < ·) ((variants n).getD i []) ((variants n).getD j []) := by
  refine ⟨variants_length n, variants_nodup n, variants_mem n, ?_⟩
  have hne : variants n ≠ [] := by
    intro h
    have := variants_length n
    rw [h] at this
    exact absurd this.symm (by positivity)
  obtain ⟨hi, hle, hfirst⟩ := argmax_map_spec
    (fun v => var_assess_quality v q_ids certain_rids clouds locations mf)
    (variants n) [] hne
  refine ⟨argmax ((variants n).map
    (fun v => var_assess_quality v q_ids certain_rids clouds locations mf)),
    hi, rfl, hle, ?_⟩
  intro j hj heq hji
  have hij : argmax ((variants n).map
      (fun v => var_assess_quality v q_ids certain_rids clouds locations mf)) < j := by
    rcases Nat.lt_or_ge j (argmax ((variants n).map
      (fun v => var_assess_quality v q_ids certain_rids clouds locations mf)))
      with hlt | hge
    · exact absurd heq (ne_of_lt (hfirst j hlt))
    · exact lt_of_le_of_ne hge (Ne.symm hji)
  have hp := List.pairwise_iff_get.mp (variants_sorted n)
    ⟨_, hi⟩ ⟨j, hj⟩ hij
  rwa [getD_eq_get _ _ hi, getD_eq_get _ _ hj]

/-! ## C4: all-zero is returned only when it attains the maximum -/

/-- C4 counterexample: with one certain read at 10 and one ambiguous read
whose candidates are 30 (bit 0) and 10 (bit 1), the scores are
`[-1, 0]` — every variant scores ≤ 0 — yet the search returns `[1]`,
not the all-zero vector: `np.argmax` picks the first maximum, with no
special treatment of non-positive scores. -/
theorem c4_counterexample :
    (∀ v ∈ variants 1,
      var_assess_quality v ["Q"] ["A"] exClouds exLocsNeg 0 ≤ 0) ∧
    var_assess_quality [0] ["Q"] ["A"] exClouds exLocsNeg 0 = -1 ∧
    var_assess_quality [1] ["Q"] ["A"] exClouds exLocsNeg 0 = 0 ∧
    get_best_variant 1 ["Q"] ["A"] exClouds exLocsNeg 0 = [1] ∧
    get_best_variant 1 ["Q"] ["A"] exClouds exLocsNeg 0 ≠
      List.replicate 1 0 :=
  ⟨by decide, by decide, by decide, by decide, by decide⟩

/-- C4 as amended: the search returns the first variant of the
enumeration attaining the maximal score; since the all-zero vector is
enumerated first, it is returned whenever its score is maximal — in
particular when all variants score equally — but not whenever all scores
are merely ≤ 0. -/
theorem c4_amended (n : Nat) (q_ids certain_rids : List String)
    (clouds : String → ReadKMerCloud)
    (locations : String → List (Int × Int)) (mf : Nat)
    (h : ∀ v ∈ variants n,
      var_assess_quality v q_ids certain_rids clouds locations mf ≤
        var_assess_quality (List.replicate n 0) q_ids certain_rids clouds
          locations mf) :
    get_best_variant n q_ids certain_rids clouds locations mf =
      List.replicate n 0 := by
  have hne : variants n ≠ [] := by
    intro hnil
    have := variants_length n
    rw [hnil] at this
    exact absurd this.symm (by positivity)
  obtain ⟨t, ht⟩ := variants_head n
  have h0 : (variants n).getD 0 [] = List.replicate n 0 := by rw [ht]; rfl
  obtain ⟨hi, hle, hfirst⟩ := argmax_map_spec
    (fun v => var_assess_quality v q_ids certain_rids clouds locations mf)
    (variants n) [] hne
  have hzero : argmax ((variants n).map
      (fun v => var_assess_quality v q_ids certain_rids clouds locations mf)) = 0 := by
    by_contra hnz
    have h0lt : 0 < argmax ((variants n).map
        (fun v => var_assess_quality v q_ids certain_rids clouds locations mf)) :=
      Nat.pos_of_ne_zero hnz
    have hstrict := hfirst 0 h0lt
    rw [h0] at hstrict
    have hmem : (variants n).getD (argmax ((variants n).map
        (fun v => var_assess_quality v q_ids certain_rids clouds locations mf))) [] ∈
        variants n := by
      rw [getD_eq_get _ _ hi]
      exact List.get_mem _ _ _
    exact absurd (h _ hmem) (not_le.mpr hstrict)
  show (variants n).getD (argmax ((variants n).map
      (fun v => var_assess_quality v q_ids certain_rids clouds locations mf))) [] =
    List.replicate n 0
  rw [hzero, h0]

/-- C4 witness: with the two candidate placements coinciding, both
variants score alike, the hypothesis of `c4_amended` holds, and the
search indeed returns the all-zero vector. -/
theorem c4_witness :
    get_best_variant 1 ["Q"] ["A"] exClouds exLocsSym 0 =
      List.replicate 1 0 :=
  c4_amended 1 ["Q"] ["A"] exClouds exLocsSym 0 (by decide)

/-! ## C5, C6: the k-mer cloud builder -/

/-- Every sliding window is a length-`k` infix of the segment. -/
theorem windows_mem {k : Nat} {s : List Char} {km : Kmer}
    (h : km ∈ windows k s) : km.length = k ∧ km <:+: s := by
  rw [windows] at h
  split_ifs at h with hk
  · obtain ⟨i, hi, rfl⟩ := List.mem_map.mp h
    rw [List.mem_range] at hi
    have hik : i + k ≤ s.length := by omega
    constructor
    · rw [List.length_take, List.length_drop]; omega
    · refine ⟨s.take i, s.drop (i + k), ?_⟩
      have h2 : s.drop (i + k) = (s.drop i).drop k := by
        rw [List.drop_drop]
      have h1 : (s.drop i).take k ++ s.drop (i + k) = s.drop i := by
        rw [h2, List.take_append_drop]
      rw [List.append_assoc, h1, List.take_append_drop]
  · simp at h

/-- Membership in the per-unit filtered set. -/
theorem mem_unitKmers {k : Nat} {s : List Char} {km : Kmer} :
    km ∈ unitKmers k s ↔
      km ∈ windows k s ∧ (windows k s).count km = 1 := by
  simp [unitKmers, List.mem_filter]

/-- `getD` through a `filter`-valued `map` (both defaults empty). -/
theorem map_filter_getD {α : Type} (l : List (List α)) (p : α → Bool)
    (i : Nat) :
    (l.map (fun u => u.filter p)).getD i [] = (l.getD i []).filter p := by
  rw [List.getD_eq_getElem?_getD, List.getD_eq_getElem?_getD,
    List.getElem?_map]
  cases h : l[i]? with
  | none => rfl
  | some u => rfl

/-- The unit sets of `from_monoread`, accessed with a default. -/
theorem from_monoread_kmers_getD (mr : MonoRead) (k m i : Nat) :
    (ReadKMerCloud.from_monoread mr k m).kmers.getD i [] =
      ((mr.monoinstances.map (unitKmers k)).getD i []).filter
        (fun km => decide
          (crossUnitCount (mr.monoinstances.map (unitKmers k)) km < m)) :=
  map_filter_getD (mr.monoinstances.map (unitKmers k)) _ i

/-- C5: every k-mer kept for a unit has length `k`, is a substring of the
unit's segment, and occurs exactly once among the unit's sliding windows;
a unit shorter than `k` keeps nothing. -/
theorem c5_cloud_purity (mr : MonoRead) (k m i : Nat) :
    (∀ km ∈ (ReadKMerCloud.from_monoread mr k m).kmers.getD i [],
      km.length = k ∧ km <:+: mr.monoinstances.getD i [] ∧
      (windows k (mr.monoinstances.getD i [])).count km = 1) ∧
    ((mr.monoinstances.getD i []).length < k →
      (ReadKMerCloud.from_monoread mr k m).kmers.getD i [] = []) := by
  by_cases hi : i < mr.monoinstances.length
  · have hseg : (mr.monoinstances.map (unitKmers k)).getD i [] =
        unitKmers k (mr.monoinstances.getD i []) :=
      map_getD_of_lt (unitKmers k) _ [] [] hi
    constructor
    · intro km hkm
      rw [from_monoread_kmers_getD, hseg] at hkm
      have hk1 : km ∈ unitKmers k (mr.monoinstances.getD i []) :=
        (List.mem_filter.mp hkm).1
      obtain ⟨hw, hc⟩ := mem_unitKmers.mp hk1
      obtain ⟨hlen, hinf⟩ := windows_mem hw
      exact ⟨hlen, hinf, hc⟩
    · intro hshort
      rw [from_monoread_kmers_getD, hseg]
      have hu : unitKmers k (mr.monoinstances.getD i []) = [] := by
        rw [unitKmers, windows, if_neg (by omega)]
        rfl
      rw [hu]
      rfl
  · have hout : (ReadKMerCloud.from_monoread mr k m).kmers.getD i [] = [] := by
      rw [List.getD_eq_getElem?_getD, List.getElem?_eq_none]
      · rfl
      · simp [ReadKMerCloud.from_monoread]
        omega
    rw [hout]
    exact ⟨fun km hkm => absurd hkm (List.not_mem_nil km), fun _ => rfl⟩

/-- C6: a k-mer surviving the per-unit filter in at least `max_mult`
units is dropped from every unit's set; one surviving in fewer units is
kept exactly in the units where it survived. -/
theorem c6_cross_unit_ceiling (mr : MonoRead) (k m i : Nat) (km : Kmer) :
    (m ≤ crossUnitCount (mr.monoinstances.map (unitKmers k)) km →
      km ∉ (ReadKMerCloud.from_monoread mr k m).kmers.getD i []) ∧
    (crossUnitCount (mr.monoinstances.map (unitKmers k)) km < m →
      (km ∈ (ReadKMerCloud.from_monoread mr k m).kmers.getD i [] ↔
        km ∈ (mr.monoinstances.map (unitKmers k)).getD i [])) := by
  constructor
  · intro hge hmem
    rw [from_monoread_kmers_getD] at hmem
    have hlt := (List.mem_filter.mp hmem).2
    simp only [decide_eq_true_eq] at hlt
    omega
  · intro hlt
    rw [from_monoread_kmers_getD]
    simp [List.mem_filter, hlt]

/-! ## C7: the Location Patcher -/

/-- Updating one key leaves lookups of other keys unchanged. -/
theorem lookupLoc_updateLoc_ne (m : LocMap) (q r : String)
    (v : List (Int × Int)) (h : r ≠ q) :
    lookupLoc (updateLoc m q v) r = lookupLoc m r := by
  induction m with
  | nil => rfl
  | cons p rest ih =>
    by_cases hp : p.1 = q
    · rw [updateLoc, List.map_cons, if_pos hp]
      rw [show lookupLoc ((p.1, v) :: List.map _ rest) r =
          if p.1 = r then some v else lookupLoc (List.map _ rest) r from rfl]
      rw [if_neg (fun he => h (he.symm.trans hp))]
      rw [show lookupLoc (p :: rest) r =
          if p.1 = r then some p.2 else lookupLoc rest r from rfl]
      rw [if_neg (fun he => h (he.symm.trans hp))]
      exact ih
    · rw [updateLoc, List.map_cons, if_neg hp]
      rw [show lookupLoc (p :: List.map _ rest) r =
          if p.1 = r then some p.2 else lookupLoc (List.map _ rest) r from rfl]
      rw [show lookupLoc (p :: rest) r =
          if p.1 = r then some p.2 else lookupLoc rest r from rfl]
      by_cases hr : p.1 = r
      · rw [if_pos hr, if_pos hr]
      · rw [if_neg hr, if_neg hr]
        exact ih

/-- Updating a present key makes its lookup the new value. -/
theorem lookupLoc_updateLoc_self (m : LocMap) (q : String)
    (v ls : List (Int × Int)) (h : lookupLoc m q = some ls) :
    lookupLoc (updateLoc m q v) q = some v := by
  induction m with
  | nil => simp [lookupLoc] at h
  | cons p rest ih =>
    by_cases hp : p.1 = q
    · rw [updateLoc, List.map_cons, if_pos hp]
      rw [show lookupLoc ((p.1, v) :: List.map _ rest) q =
          if p.1 = q then some v else lookupLoc (List.map _ rest) q from rfl]
      rw [if_pos hp]
    · rw [updateLoc, List.map_cons, if_neg hp]
      rw [show lookupLoc (p :: List.map _ rest) q =
          if p.1 = q then some p.2 else lookupLoc (List.map _ rest) q from rfl]
      rw [if_neg hp]
      rw [show lookupLoc (p :: rest) q =
          if p.1 = q then some p.2 else lookupLoc rest q from rfl,
        if_neg hp] at h
      exact ih h

/-- Keys of the pairs of a zip are the matching front of the second list. -/
theorem zip_map_snd {α β : Type} (v : List α) (qs : List β) :
    (v.zip qs).map Prod.snd = qs.take v.length := by
  induction v generalizing qs with
  | nil => simp
  | cons a v ih =>
    cases qs with
    | nil => simp
    | cons b qs => simp [ih]

/-- The patching loop, specified: under distinct keys that are present
with the selected index in range, it succeeds; each patched key maps to
the singleton holding the location its bit selected from the original
table; all other keys are untouched. -/
theorem patchPairs_spec (pairs : List (Nat × String)) (m : LocMap)
    (hnd : (pairs.map Prod.snd).Nodup)
    (hok : ∀ bq ∈ pairs, ∃ ls, lookupLoc m bq.2 = some ls ∧
      bq.1 < ls.length) :
    ∃ m', patchPairs pairs m = some m' ∧
      (∀ bq ∈ pairs, ∃ ls, lookupLoc m bq.2 = some ls ∧
        lookupLoc m' bq.2 = some [ls.getD bq.1 (0, 0)]) ∧
      (∀ r, r ∉ pairs.map Prod.snd → lookupLoc m' r = lookupLoc m r) := by
  induction pairs generalizing m with
  | nil => exact ⟨m, rfl, by simp, fun r _ => rfl⟩
  | cons bq rest ih =>
    obtain ⟨b, q⟩ := bq
    obtain ⟨ls, hls, hb⟩ := hok (b, q) (List.mem_cons_self _ _)
    have hnd2 : (q :: rest.map Prod.snd).Nodup := hnd
    have hq : q ∉ rest.map Prod.snd := (List.nodup_cons.mp hnd2).1
    have hnd' : (rest.map Prod.snd).Nodup := (List.nodup_cons.mp hnd2).2
    have hgb : ls[b]? = some (ls.getD b (0, 0)) := by
      rw [List.getElem?_eq_getElem hb, getD_eq_get _ _ hb]
      rfl
    have hstep : patchPairs ((b, q) :: rest) m =
        patchPairs rest (updateLoc m q [ls.getD b (0, 0)]) := by
      simp only [patchPairs, hls, hgb]
    have hok' : ∀ bq ∈ rest, ∃ ls', lookupLoc
        (updateLoc m q [ls.getD b (0, 0)]) bq.2 = some ls' ∧
        bq.1 < ls'.length := by
      intro bq' hbq'
      obtain ⟨ls', hls', hb'⟩ := hok bq' (List.mem_cons_of_mem _ hbq')
      have hne : bq'.2 ≠ q := by
        intro he
        exact hq (he ▸ List.mem_map_of_mem Prod.snd hbq')
      exact ⟨ls', by rw [lookupLoc_updateLoc_ne _ _ _ _ hne]; exact hls', hb'⟩
    obtain ⟨m', hm', hpatched, huntouched⟩ := ih
      (updateLoc m q [ls.getD b (0, 0)]) hnd' hok'
    refine ⟨m', by rw [hstep]; exact hm', ?_, ?_⟩
    · intro bq' hbq'
      rcases List.mem_cons.mp hbq' with rfl | hbq''
      · refine ⟨ls, hls, ?_⟩
        rw [huntouched q hq]
        exact lookupLoc_updateLoc_self m q _ ls hls
      · obtain ⟨ls', hls', hres⟩ := hpatched bq' hbq''
        have hne : bq'.2 ≠ q := by
          intro he
          exact hq (he ▸ List.mem_map_of_mem Prod.snd hbq'')
        refine ⟨ls', ?_, hres⟩
        rw [← lookupLoc_updateLoc_ne m q bq'.2 [ls.getD b (0, 0)] hne]
        exact hls'
    · intro r hr
      have hrq : r ≠ q := by
        intro he
        exact hr (by rw [he]; exact List.mem_cons_self _ _)
      have hr' : r ∉ rest.map Prod.snd := by
        intro hmem
        exact hr (by simpa using Or.inr hmem)
      rw [huntouched r hr', lookupLoc_updateLoc_ne _ _ _ _ hrq]

/-- C7: under the intended preconditions — the patched front of `q_ids`
has no repeats, each such read is a key of the table, and each bit indexes
within its location list — the patcher replaces the location list of each
of the first `min(len(variant), len(q_ids))` ambiguous reads by the
singleton its bit selects, leaves every other read untouched, raises no
error, consumes only the shorter of the two lists, and the filtered
result holds exactly the entries whose location list has length 1. -/
theorem c7_patcher (variant : List Nat) (q_ids : List String) (m : LocMap)
    (hnd : (q_ids.take variant.length).Nodup)
    (hok : ∀ bq ∈ variant.zip q_ids, ∃ ls, lookupLoc m bq.2 = some ls ∧
      bq.1 < ls.length) :
    ∃ m', patch_locations variant q_ids m = some m' ∧
      (∀ bq ∈ variant.zip q_ids, ∃ ls, lookupLoc m bq.2 = some ls ∧
        lookupLoc m' bq.2 = some [ls.getD bq.1 (0, 0)]) ∧
      (∀ r, r ∉ q_ids.take variant.length →
        lookupLoc m' r = lookupLoc m r) ∧
      resolve_locations variant q_ids m = some (filter_singles m') ∧
      (∀ p, p ∈ filter_singles m' ↔ p ∈ m' ∧ p.2.length = 1) ∧
      patch_locations variant q_ids m =
        patch_locations variant (q_ids.take variant.length) m := by
  have hnd' : ((variant.zip q_ids).map Prod.snd).Nodup := by
    rw [zip_map_snd]; exact hnd
  obtain ⟨m', hm', hpatched, huntouched⟩ :=
    patchPairs_spec (variant.zip q_ids) m hnd' hok
  refine ⟨m', hm', hpatched, ?_, ?_, ?_, ?_⟩
  · intro r hr
    exact huntouched r (by rw [zip_map_snd]; exact hr)
  · rw [resolve_locations, patch_locations, hm']
    rfl
  · intro p
    simp [filter_singles, List.mem_filter]
  · rw [patch_locations, patch_locations, zip_take_self]

/-- C7 witness: the patcher run on a concrete table with two ambiguous
reads (bits 0 and 1) and one unresolved read. -/
theorem c7_witness :
    ∃ m', patch_locations [0, 1] ["a", "b"] exPatchMap = some m' ∧
      (∀ bq ∈ ([0, 1] : List Nat).zip ["a", "b"],
        ∃ ls, lookupLoc exPatchMap bq.2 = some ls ∧
          lookupLoc m' bq.2 = some [ls.getD bq.1 (0, 0)]) ∧
      (∀ r, r ∉ (["a", "b"] : List String).take ([0, 1] : List Nat).length →
        lookupLoc m' r = lookupLoc exPatchMap r) ∧
      resolve_locations [0, 1] ["a", "b"] exPatchMap =
        some (filter_singles m') ∧
      (∀ p, p ∈ filter_singles m' ↔ p ∈ m' ∧ p.2.length = 1) ∧
      patch_locations [0, 1] ["a", "b"] exPatchMap =
        patch_locations [0, 1]
          ((["a", "b"] : List String).take ([0, 1] : List Nat).length)
          exPatchMap :=
  c7_patcher [0, 1] ["a", "b"] exPatchMap (by decide)
    (by
      intro bq hbq
      rw [show ([0, 1] : List Nat).zip ["a", "b"] =
          [(0, "a"), (1, "b")] from rfl] at hbq
      rcases List.mem_cons.mp hbq with rfl | hbq'
      · exact ⟨[(1, 2), (3, 4)], rfl, by norm_num⟩
      rcases List.mem_cons.mp hbq' with rfl | hbq''
      · exact ⟨[(5, 6), (7, 8)], rfl, by norm_num⟩
      · exact absurd hbq'' (List.not_mem_nil _))

/-! ## C8: idempotence of the patcher -/

/-- Unfolding of `lookupLoc` on a non-empty table. -/
theorem lookupLoc_cons (p : String × List (Int × Int)) (rest : LocMap)
    (r : String) :
    lookupLoc (p :: rest) r =
      if p.1 = r then some p.2 else lookupLoc rest r := rfl

/-- A successful lookup comes from an entry of the table. -/
theorem mem_of_lookupLoc (m : LocMap) (q : String)
    (ls : List (Int × Int)) (h : lookupLoc m q = some ls) :
    ∃ p ∈ m, p.1 = q ∧ p.2 = ls := by
  induction m with
  | nil => simp [lookupLoc] at h
  | cons p rest ih =>
    rw [lookupLoc_cons] at h
    by_cases hpq : p.1 = q
    · rw [if_pos hpq] at h
      exact ⟨p, List.mem_cons_self _ _, hpq, Option.some.inj h⟩
    · rw [if_neg hpq] at h
      obtain ⟨p1, hp1, hk, hv⟩ := ih h
      exact ⟨p1, List.mem_cons_of_mem _ hp1, hk, hv⟩

/-- A failed lookup means the key is absent. -/
theorem lookupLoc_none (m : LocMap) (q : String)
    (h : lookupLoc m q = none) : ∀ p ∈ m, p.1 ≠ q := by
  induction m with
  | nil => intro p hp; cases hp
  | cons p0 rest ih =>
    rw [lookupLoc_cons] at h
    by_cases hpq : p0.1 = q
    · rw [if_pos hpq] at h; cases h
    · rw [if_neg hpq] at h
      intro p hp
      rcases List.mem_cons.mp hp with rfl | hp'
      · exact hpq
      · exact ih h p hp'

/-- On a homogeneous-singleton key, lookup returns the shared singleton. -/
theorem lookupLoc_of_homSingle (m : LocMap) (q : String)
    (h : homSingle m q) :
    ∃ x, lookupLoc m q = some [x] ∧ ∀ p ∈ m, p.1 = q → p.2 = [x] := by
  obtain ⟨x, ⟨p0, hp0, hk0⟩, hall⟩ := h
  refine ⟨x, ?_, hall⟩
  cases hl : lookupLoc m q with
  | none => exact absurd hk0 (lookupLoc_none m q hl p0 hp0)
  | some ls =>
    obtain ⟨p1, hp1, hk1, hv1⟩ := mem_of_lookupLoc m q ls hl
    rw [← hv1, hall p1 hp1 hk1]

/-- Writing the value every entry of the key already holds is a no-op. -/
theorem updateLoc_noop (m : LocMap) (q : String) (v : List (Int × Int))
    (hall : ∀ p ∈ m, p.1 = q → p.2 = v) : updateLoc m q v = m := by
  induction m with
  | nil => rfl
  | cons p rest ih =>
    rw [updateLoc, List.map_cons]
    by_cases hpq : p.1 = q
    · rw [if_pos hpq]
      have : (p.1, v) = p := by
        have := hall p (List.mem_cons_self _ _) hpq
        exact Prod.ext rfl this.symm
      rw [this]
      rw [show List.map (fun p' => if p'.1 = q then (p'.1, v) else p') rest =
          updateLoc rest q v from rfl,
        ih (fun p' hp' hk' => hall p' (List.mem_cons_of_mem _ hp') hk')]
    · rw [if_neg hpq]
      rw [show List.map (fun p' => if p'.1 = q then (p'.1, v) else p') rest =
          updateLoc rest q v from rfl,
        ih (fun p' hp' hk' => hall p' (List.mem_cons_of_mem _ hp') hk')]

/-- Any singleton-valued update preserves homogeneity of any key. -/
theorem homSingle_updateLoc (m : LocMap) (q q' : String)
    (v' : List (Int × Int)) (hv : v'.length = 1) (h : homSingle m q) :
    homSingle (updateLoc m q' v') q := by
  obtain ⟨x, ⟨p0, hp0, hk0⟩, hall⟩ := h
  obtain ⟨y, rfl⟩ := List.length_eq_one.mp hv
  by_cases hqq : q' = q
  · subst hqq
    refine ⟨y, ⟨(p0.1, [y]), ?_, hk0⟩, ?_⟩
    · rw [updateLoc]
      exact List.mem_map.mpr ⟨p0, hp0, by rw [if_pos hk0]⟩
    · intro p hp hk
      obtain ⟨p1, hp1, he⟩ := List.mem_map.mp hp
      by_cases h1 : p1.1 = q'
      · rw [if_pos h1] at he
        rw [← he]
      · rw [if_neg h1] at he
        subst he
        exact absurd hk h1
  · refine ⟨x, ⟨p0, ?_, hk0⟩, ?_⟩
    · rw [updateLoc]
      exact List.mem_map.mpr ⟨p0, hp0,
        by rw [if_neg (fun he => hqq (he.symm.trans hk0))]⟩
    · intro p hp hk
      obtain ⟨p1, hp1, he⟩ := List.mem_map.mp hp
      by_cases h1 : p1.1 = q'
      · rw [if_pos h1] at he
        have hpq' : p.1 = q' := by rw [← he]; exact h1
        exact absurd (hpq'.symm.trans hk) hqq
      · rw [if_neg h1] at he
        subst he
        exact hall p1 hp1 hk

/-- A successful pass of the loop preserves homogeneous-singleton keys. -/
theorem homSingle_patchPairs (pairs : List (Nat × String)) (m m' : LocMap)
    (q : String) (h : patchPairs pairs m = some m') (hq : homSingle m q) :
    homSingle m' q := by
  induction pairs generalizing m with
  | nil =>
    rw [patchPairs] at h
    injection h with h'
    exact h' ▸ hq
  | cons bq rest ih =>
    obtain ⟨b, q'⟩ := bq
    cases hl : lookupLoc m q' with
    | none =>
      simp only [patchPairs, hl] at h
      cases h
    | some ls =>
      cases hg : ls[b]? with
      | none =>
        simp only [patchPairs, hl, hg] at h
        cases h
      | some loc =>
        simp only [patchPairs, hl, hg] at h
        exact ih (updateLoc m q' [loc]) h
          (homSingle_updateLoc m q q' [loc] rfl hq)

/-- After any update of a present key with a singleton, the key is
homogeneous-singleton. -/
theorem homSingle_after_update (m : LocMap) (q : String)
    (x : Int × Int) (hpres : ∃ p ∈ m, p.1 = q) :
    homSingle (updateLoc m q [x]) q := by
  obtain ⟨p0, hp0, hk0⟩ := hpres
  refine ⟨x, ⟨(p0.1, [x]), ?_, hk0⟩, ?_⟩
  · rw [updateLoc]
    exact List.mem_map.mpr ⟨p0, hp0, by rw [if_pos hk0]⟩
  · intro p hp hk
    obtain ⟨p1, hp1, he⟩ := List.mem_map.mp hp
    by_cases h1 : p1.1 = q
    · rw [if_pos h1] at he
      rw [← he]
    · rw [if_neg h1] at he
      subst he
      exact absurd hk h1

/-- After a successful pass, every key the loop touched is
homogeneous-singleton. -/
theorem patchPairs_establishes (pairs : List (Nat × String))
    (m m' : LocMap) (h : patchPairs pairs m = some m') :
    ∀ bq ∈ pairs, homSingle m' bq.2 := by
  induction pairs generalizing m with
  | nil => intro bq hbq; cases hbq
  | cons bq0 rest ih =>
    obtain ⟨b, q'⟩ := bq0
    cases hl : lookupLoc m q' with
    | none =>
      simp only [patchPairs, hl] at h
      cases h
    | some ls =>
      cases hg : ls[b]? with
      | none =>
        simp only [patchPairs, hl, hg] at h
        cases h
      | some loc =>
        simp only [patchPairs, hl, hg] at h
        intro bq hbq
        rcases List.mem_cons.mp hbq with rfl | hbq'
        · have hpres : ∃ p ∈ m, p.1 = q' := by
            obtain ⟨p1, hp1, hk1, _⟩ := mem_of_lookupLoc m q' ls hl
            exact ⟨p1, hp1, hk1⟩
          exact homSingle_patchPairs rest _ m' q' h
            (homSingle_after_update m q' loc hpres)
        · exact ih (updateLoc m q' [loc]) h bq hbq'

/-- The singleton filter keeps homogeneous-singleton keys homogeneous. -/
theorem homSingle_filter_singles (m : LocMap) (q : String)
    (h : homSingle m q) : homSingle (filter_singles m) q := by
  obtain ⟨x, ⟨p0, hp0, hk0⟩, hall⟩ := h
  have hp02 : p0.2 = [x] := hall p0 hp0 hk0
  refine ⟨x, ⟨p0, ?_, hk0⟩, ?_⟩
  · rw [filter_singles]
    exact List.mem_filter.mpr ⟨hp0, by rw [hp02]; rfl⟩
  · intro p hp hk
    exact hall p (List.mem_filter.mp hp).1 hk

/-- A pass whose bits are all 0 over homogeneous-singleton keys is the
identity. -/
theorem patchPairs_noop (pairs : List (Nat × String)) (m : LocMap)
    (hz : ∀ bq ∈ pairs, bq.1 = 0)
    (hh : ∀ bq ∈ pairs, homSingle m bq.2) :
    patchPairs pairs m = some m := by
  induction pairs with
  | nil => rfl
  | cons bq0 rest ih =>
    obtain ⟨b, q'⟩ := bq0
    have hb : b = 0 := hz (b, q') (List.mem_cons_self _ _)
    subst hb
    obtain ⟨x, hlook, hall⟩ :=
      lookupLoc_of_homSingle m q' (hh (0, q') (List.mem_cons_self _ _))
    have hupd : updateLoc m q' [x] = m := updateLoc_noop m q' [x] hall
    simp only [patchPairs, hlook, List.getElem?_cons_zero, hupd]
    exact ih (fun bq hbq => hz bq (List.mem_cons_of_mem _ hbq))
      (fun bq hbq => hh bq (List.mem_cons_of_mem _ hbq))

/-- The singleton filter is idempotent. -/
theorem filter_singles_idem (m : LocMap) :
    filter_singles (filter_singles m) = filter_singles m := by
  simp [filter_singles, List.filter_filter]

/-- C8 counterexample: with winning bit 1, one application resolves the
table, but a second application indexes the singleton location list at 1
— `IndexError` in the source, `none` here — so patching twice is not the
same as patching once. -/
theorem c8_counterexample :
    resolve_locations [1] ["q"] [("q", [(1, 2), (3, 4)])] =
      some [("q", [(3, 4)])] ∧
    resolve_locations [1] ["q"] [("q", [(3, 4)])] = none :=
  ⟨by decide, by decide⟩

/-- C8 as amended: for an all-zero winning variant (each bit selecting
candidate 0) a successful application of the Location Patcher is
idempotent: the second application succeeds and returns the same
singleton table.  For a variant with a bit 1 the second application
fails, as the counterexample shows. -/
theorem c8_amended (variant : List Nat) (q_ids : List String)
    (m t : LocMap) (hz : ∀ b ∈ variant, b = 0)
    (h : resolve_locations variant q_ids m = some t) :
    resolve_locations variant q_ids t = some t := by
  rw [resolve_locations] at h
  cases hp : patch_locations variant q_ids m with
  | none => rw [hp] at h; exact absurd h (by simp)
  | some m' =>
    rw [hp] at h
    have ht : t = filter_singles m' := by
      have h2 : some (filter_singles m') = some t := h
      injection h2 with h3
      exact h3.symm
    have hz' : ∀ bq ∈ variant.zip q_ids, bq.1 = 0 :=
      fun bq hbq => hz bq.1 (List.of_mem_zip hbq).1
    have hh : ∀ bq ∈ variant.zip q_ids, homSingle t bq.2 := by
      intro bq hbq
      have h1 : homSingle m' bq.2 :=
        patchPairs_establishes (variant.zip q_ids) m m' hp bq hbq
      rw [ht]
      exact homSingle_filter_singles m' bq.2 h1
    have hnoop : patchPairs (variant.zip q_ids) t = some t :=
      patchPairs_noop (variant.zip q_ids) t hz' hh
    rw [resolve_locations, patch_locations, hnoop]
    have h4 : Option.map filter_singles (some t) = some (filter_singles t) := rfl
    rw [h4, ht, filter_singles_idem]

/-- C8 witness: an all-zero variant applied twice to a concrete table. -/
theorem c8_witness :
    resolve_locations [0] ["q"] [("q", [(1, 2), (3, 4)])] =
      some [("q", [(1, 2)])] ∧
    resolve_locations [0] ["q"] [("q", [(1, 2)])] =
      some [("q", [(1, 2)])] :=
  ⟨by decide,
   c8_amended [0] ["q"] [("q", [(1, 2), (3, 4)])] [("q", [(1, 2)])]
     (by decide) (by decide)⟩

/-! ## C9: the ambiguous-read selection -/

/-- C9 counterexample: read "u" is selected although neither of its
locations starts at or after the left border (so the spec's straddle
condition fails for it), and read "w" satisfies the spec's straddle
condition yet is not selected — the code tests
`locations[r][0][1] >= left_border and locations[r][1][0] <= right_border`,
not the spec's phrasing. -/
theorem c9_counterexample :
    select_q_ids
        [("u", [(0, 20000), (5, 10)]), ("w", [(0, 100), (15000, 20000)])]
        11924 14393 = ["u"] ∧
    ¬ specStraddle [(0, 20000), (5, 10)] 11924 14393 ∧
    specStraddle [(0, 100), (15000, 20000)] 11924 14393 ∧
    "w" ∉ select_q_ids
        [("u", [(0, 20000), (5, 10)]), ("w", [(0, 100), (15000, 20000)])]
        11924 14393 :=
  ⟨by decide, by unfold specStraddle; decide, by unfold specStraddle; decide,
   by decide⟩

/-- C9 as amended: a read is placed in `q_ids` exactly when its location
list is some `[a, b]` with the first location ending at or after the left
border and the second starting at or before the right border. -/
theorem c9_amended (locations : LocMap) (lb rb : Int) (r : String) :
    r ∈ select_q_ids locations lb rb ↔
      ∃ a b, (r, [a, b]) ∈ locations ∧ lb ≤ a.2 ∧ b.1 ≤ rb := by
  rw [select_q_ids]
  simp only [List.mem_map, List.mem_filter]
  constructor
  · rintro ⟨p, ⟨hp, hcond⟩, rfl⟩
    simp only [Bool.and_eq_true, beq_iff_eq, decide_eq_true_eq] at hcond
    obtain ⟨⟨hlen, h1⟩, h2⟩ := hcond
    obtain ⟨a, b, hab⟩ := List.length_eq_two.mp hlen
    refine ⟨a, b, ?_, ?_, ?_⟩
    · rw [← hab]
      exact hp
    · rw [hab] at h1
      exact h1
    · rw [hab] at h2
      exact h2
  · rintro ⟨a, b, hab, h1, h2⟩
    refine ⟨(r, [a, b]), ⟨hab, ?_⟩, rfl⟩
    simp only [Bool.and_eq_true, beq_iff_eq, decide_eq_true_eq]
    exact ⟨⟨rfl, h1⟩, h2⟩

/-! ## C10: `get_certain_reads` -/

/-- C10: `get_certain_reads` is a permutation of the reads having exactly
one location `(s, e)` with `e > left_border` and `s < right_border`
(strict bounds), its membership is characterised accordingly, and its
output is ordered by non-increasing monoread length (so any consumed
front holds the longest reads first). -/
theorem c10_get_certain_reads (locations : LocMap)
    (monolen : String → Nat) (lb rb : Int) :
    (∀ r, r ∈ get_certain_reads locations monolen lb rb ↔
      ∃ s e, ∃ p ∈ locations, p.1 = r ∧ p.2 = [(s, e)] ∧
        lb < e ∧ s < rb) ∧
    (get_certain_reads locations monolen lb rb).Pairwise
      (fun a b => monolen b ≤ monolen a) ∧
    (get_certain_reads locations monolen lb rb).Perm
      ((locations.filter (fun p => p.2.length == 1 &&
        decide (lb < (p.2.getD 0 (0, 0)).2) &&
        decide ((p.2.getD 0 (0, 0)).1 < rb))).map Prod.fst) := by
  have hperm : (get_certain_reads locations monolen lb rb).Perm
      ((locations.filter (fun p => p.2.length == 1 &&
        decide (lb < (p.2.getD 0 (0, 0)).2) &&
        decide ((p.2.getD 0 (0, 0)).1 < rb))).map Prod.fst) :=
    List.mergeSort_perm _ _
  refine ⟨?_, ?_, hperm⟩
  · intro r
    rw [hperm.mem_iff]
    simp only [List.mem_map, List.mem_filter]
    constructor
    · rintro ⟨p, ⟨hp, hcond⟩, rfl⟩
      simp only [Bool.and_eq_true, beq_iff_eq, decide_eq_true_eq] at hcond
      obtain ⟨⟨hlen, h1⟩, h2⟩ := hcond
      obtain ⟨se, hse⟩ := List.length_eq_one.mp hlen
      refine ⟨se.1, se.2, p, hp, rfl, ?_, ?_, ?_⟩
      · rw [hse]
      · rw [hse] at h1
        exact h1
      · rw [hse] at h2
        exact h2
    · rintro ⟨s, e, p, hp, rfl, hv, h1, h2⟩
      refine ⟨p, ⟨hp, ?_⟩, rfl⟩
      simp only [Bool.and_eq_true, beq_iff_eq, decide_eq_true_eq, hv]
      exact ⟨⟨rfl, h1⟩, h2⟩
  · have hs := @List.sorted_mergeSort String
      (fun a b => decide (monolen b ≤ monolen a))
      (fun a b c hab hbc => by
        simp only [decide_eq_true_eq] at hab hbc ⊢
        omega)
      (fun a b => by
        rcases Nat.le_total (monolen b) (monolen a) with h | h <;> simp [h])
      ((locations.filter (fun p => p.2.length == 1 &&
        decide (lb < (p.2.getD 0 (0, 0)).2) &&
        decide ((p.2.getD 0 (0, 0)).1 < rb))).map Prod.fst)
    exact hs.imp (fun h => by simpa using h)
